import Mathlib

/-
Verification of the SnV spin-Hamiltonian module (snv_hamiltonian.py).

The Python source is shallowly embedded: machine floats become exact reals,
numpy complex matrices become Matrix (Fin n) (Fin n) C, python lists become
Lean lists, and the external eigensolver np.linalg.eigh is modelled as an
oracle parameter (a function from a matrix to a pair of eigenvalues and an
eigenvector matrix); the sorting step the source applies on top of the
solver output (get_eigs) is embedded explicitly via Tuple.sort.
-/

open Matrix Complex

noncomputable section

/-! ## Physical constants (scipy.constants values used by the module) -/

/-- Planck constant h, SI (exact by definition); scipy.constants. -/
def planck_h : ℝ := 6.62607015e-34

/-- Reduced Planck constant hbar = h / (2 pi); scipy.constants.hbar. -/
def hbar : ℝ := planck_h / (2 * Real.pi)

/-- Elementary charge, SI (exact by definition); scipy.constants.e. -/
def e : ℝ := 1.602176634e-19

/-- Electron mass; scipy.constants.m_e (CODATA 2018). -/
def m_e : ℝ := 9.1093837015e-31

/-- Source: pi = np.pi. -/
def pi : ℝ := Real.pi

/-- Source: mu_B = .5 * e * hbar / m_e. -/
def mu_B : ℝ := 0.5 * e * hbar / m_e

/-! ## Coordinate helpers (source lines 43-65) -/

/-- Source make_B_vector: vec = direction; nrm = sum of abs(vec)**2 (the
SQUARED euclidean norm, as written in the source); returns
magnitude * vec / nrm, componentwise. -/
def make_B_vector (magnitude : ℝ) (coordinate_vector : Fin 3 → ℝ) : Fin 3 → ℝ :=
  fun i => magnitude * coordinate_vector i / (∑ j, |coordinate_vector j| ^ 2)

/-- Row 0 of the lattice basis: ex = (1/sqrt 6) * [1, -2, 1]. -/
def lat_ex : Fin 3 → ℝ := fun i => (1 / Real.sqrt 6) * ![1, -2, 1] i

/-- Row 1 of the lattice basis: ey = (1/sqrt 2) * [1, 0, -1]. -/
def lat_ey : Fin 3 → ℝ := fun i => (1 / Real.sqrt 2) * ![1, 0, -1] i

/-- Row 2 of the lattice basis: ez = (1/sqrt 3) * [1, 1, 1]. -/
def lat_ez : Fin 3 → ℝ := fun i => (1 / Real.sqrt 3) * ![1, 1, 1] i

/-- Source _lattice_basis = np.array([_ex, _ey, _ez]) (rows ex, ey, ez). -/
def lattice_basis : Matrix (Fin 3) (Fin 3) ℝ :=
  Matrix.of ![lat_ex, lat_ey, lat_ez]

/-- Source coord_to_lattice: np.dot(_lattice_basis.transpose(), v). -/
def coord_to_lattice (coord_vector : Fin 3 → ℝ) : Fin 3 → ℝ :=
  lattice_basis.transpose.mulVec coord_vector

/-- Source lattice_to_coord: np.dot(_lattice_basis, v). -/
def lattice_to_coord (lattice_vector : Fin 3 → ℝ) : Fin 3 → ℝ :=
  lattice_basis.mulVec lattice_vector

/-- Euclidean norm of a 3-vector, for stating the norm contracts. -/
def euclNorm (v : Fin 3 → ℝ) : ℝ := Real.sqrt (∑ j, v j ^ 2)

/-! ## Term builders (source lines 68-129) -/

/-- Source H_SO: off-diagonal imaginary spin-orbit coupling, a = i lambda / 2. -/
def H_SO (lambda_SO : ℝ) : Matrix (Fin 4) (Fin 4) ℂ :=
  let a : ℂ := Complex.I * (lambda_SO : ℂ) / 2
  !![0, 0, -a, 0;
     0, 0, 0, a;
     a, 0, 0, 0;
     0, -a, 0, 0]

/-- Source H_JT: real symmetric Jahn-Teller coupling from xi = [xi_x, xi_y]. -/
def H_JT (xi_x xi_y : ℝ) : Matrix (Fin 4) (Fin 4) ℂ :=
  !![(xi_x : ℂ), 0, (xi_y : ℂ), 0;
     0, (xi_x : ℂ), 0, (xi_y : ℂ);
     (xi_y : ℂ), 0, -(xi_x : ℂ), 0;
     0, (xi_y : ℂ), 0, -(xi_x : ℂ)]

/-- Source H_ZL: orbital Zeeman term; only the z-component of B enters,
as i * Bz, scaled by f * gammaL. -/
def H_ZL (B_vec : Fin 3 → ℝ) (gammaL f : ℝ) : Matrix (Fin 4) (Fin 4) ℂ :=
  let iBz : ℂ := Complex.I * (B_vec 2 : ℂ)
  (f * gammaL : ℂ) •
  !![0, 0, iBz, 0;
     0, 0, 0, iBz;
     -iBz, 0, 0, 0;
     0, -iBz, 0, 0]

/-- Source H_ZS: spin Zeeman term with Bp = Bx + i By, Bm = Bx - i By. -/
def H_ZS (B_vec : Fin 3 → ℝ) (gammaS : ℝ) : Matrix (Fin 4) (Fin 4) ℂ :=
  let Bp : ℂ := (B_vec 0 : ℂ) + Complex.I * (B_vec 1 : ℂ)
  let Bm : ℂ := (B_vec 0 : ℂ) - Complex.I * (B_vec 1 : ℂ)
  let Bz : ℂ := (B_vec 2 : ℂ)
  (gammaS : ℂ) •
  !![Bz, Bm, 0, 0;
     Bp, -Bz, 0, 0;
     0, 0, Bz, Bm;
     0, 0, Bp, -Bz]

/-- Source H_st: strain response with diagonal shifts alpha - delta and
-alpha - delta and off-diagonal coupling beta. -/
def H_st (alpha beta delta : ℝ) : Matrix (Fin 4) (Fin 4) ℂ :=
  let ad0 : ℂ := ((alpha - delta : ℝ) : ℂ)
  let ad1 : ℂ := ((-alpha - delta : ℝ) : ℂ)
  let bt : ℂ := (beta : ℂ)
  !![ad0, 0, bt, 0;
     0, ad0, 0, bt;
     bt, 0, ad1, 0;
     0, bt, 0, ad1]

/-- Source dipole_matel: the three raw dipole matrices, indexed x = 0,
y = 1, z = 2. -/
def dipole_matel : Fin 3 → Matrix (Fin 4) (Fin 4) ℂ :=
  ![!![1, 0, 0, 0;
      0, 1, 0, 0;
      0, 0, -1, 0;
      0, 0, 0, -1],
    !![0, 0, -1, 0;
      0, 0, 0, -1;
      -1, 0, 0, 0;
      0, -1, 0, 0],
    (2 : ℂ) •
    !![1, 0, 0, 0;
      0, 1, 0, 0;
      0, 0, 1, 0;
      0, 0, 0, 1]]

/-! ## Sample parameters (source lines 166-195), units THz * rad -/

/-- Ground-manifold spin-orbit coefficient. -/
def lambda_g : ℝ := 2 * pi * 0.815

/-- Excited-manifold spin-orbit coefficient. -/
def lambda_u : ℝ := 2 * pi * 2.355

/-- Ground Jahn-Teller x-component. -/
def xi_xg : ℝ := 2 * pi * 0.065

/-- Ground Jahn-Teller y-component. -/
def xi_yg : ℝ := 2 * pi * 0

/-- Excited Jahn-Teller x-component. -/
def xi_xu : ℝ := 2 * pi * 0.855

/-- Excited Jahn-Teller y-component. -/
def xi_yu : ℝ := 2 * pi * 0

/-- Ground orbital-Zeeman quenching factor. -/
def f_g : ℝ := 0.15

/-- Excited orbital-Zeeman quenching factor. -/
def f_u : ℝ := 0.15

/-- Source: gamma_L = mu_B / hbar * 1.e-12. -/
def gamma_L : ℝ := mu_B / hbar * 1e-12

/-- Source: gamma_S = 2 * gamma_L. -/
def gamma_S : ℝ := 2 * gamma_L

/-- Ground strain parameter alpha. -/
def alpha_g : ℝ := 2 * pi * (-0.238)

/-- Ground strain parameter beta. -/
def beta_g : ℝ := 2 * pi * 0.238

/-- Ground strain parameter delta. -/
def delta_g : ℝ := 2 * pi * 0

/-- Excited strain parameter alpha. -/
def alpha_u : ℝ := 2 * pi * (-0.076)

/-- Excited strain parameter beta. -/
def beta_u : ℝ := 2 * pi * (-0.07)

/-- Excited strain parameter delta. -/
def delta_u : ℝ := 2 * pi * 0

/-- Zero-phonon-line energy. -/
def ZPL : ℝ := 2 * pi * 484.32

/-! ## Manifold Hamiltonians (source lines 197-215) -/

/-- Source _Hg0 = H_SO(lambda_g) + H_JT([xi_xg, xi_yg]). -/
def Hg0 : Matrix (Fin 4) (Fin 4) ℂ := H_SO lambda_g + H_JT xi_xg xi_yg

/-- Source _HgL lambda: ground manifold block with Zeeman terms for field B
and strain added exactly when the flag is true (else the scalar 0, i.e.
the zero matrix). -/
def HgL (B : Fin 3 → ℝ) (strain_enabled : Bool) : Matrix (Fin 4) (Fin 4) ℂ :=
  Hg0 + H_ZL B gamma_L f_g + H_ZS B gamma_S +
    (if strain_enabled then H_st alpha_g beta_g delta_g else 0)

/-- Source _Hu0 = H_SO(lambda_u) + H_JT([xi_xu, xi_yu]). -/
def Hu0 : Matrix (Fin 4) (Fin 4) ℂ := H_SO lambda_u + H_JT xi_xu xi_yu

/-- Source _HuL lambda: excited manifold block. -/
def HuL (B : Fin 3 → ℝ) (strain_enabled : Bool) : Matrix (Fin 4) (Fin 4) ℂ :=
  Hu0 + H_ZL B gamma_L f_u + H_ZS B gamma_S +
    (if strain_enabled then H_st alpha_u beta_u delta_u else 0)

/-- Source line 215: the MODULE-LEVEL variable s = False. The public entry
points call _HgL(B, s) / _HuL(B, s) with this global, not with their own
strain parameter _s. -/
def s : Bool := false

/-! ## Public entry points (source lines 219-278) -/

/-- Source snv_hamiltonian(_b, _s, b_vec=[0,0,1]): builds
B = make_B_vector(_b, lattice_to_coord(b_vec)), then places the excited
block (with ZPL added on the diagonal) at [0:4, 0:4] and the ground block
at [4:8, 4:8]. Note the strain argument _s is unused; the source reads the
module-level s instead. -/
def snv_hamiltonian (b : ℝ) (_s : Bool) (b_vec : Fin 3 → ℝ) :
    Matrix (Fin 8) (Fin 8) ℂ :=
  let B := make_B_vector b (lattice_to_coord b_vec)
  let HgT := HgL B s
  let HuT := Matrix.diagonal (fun _ => (ZPL : ℂ)) + HuL B s
  Matrix.of fun r c =>
    if hr : r.val < 4 then
      if hc : c.val < 4 then HuT ⟨r.val, hr⟩ ⟨c.val, hc⟩ else 0
    else
      if 4 ≤ c.val then
        HgT ⟨r.val - 4, by have h8 := r.isLt; omega⟩
            ⟨c.val - 4, by have h8 := c.isLt; omega⟩
      else 0

/-- The ground-manifold matrix that system(_b, _s, b_vec) builds and
diagonalizes: _HgT = _HgL(make_B_vector(_b, b_vec), s); the direction is
used as given, with no lattice_to_coord conversion. -/
def system_HgT (b : ℝ) (_s : Bool) (b_vec : Fin 3 → ℝ) : Matrix (Fin 4) (Fin 4) ℂ :=
  HgL (make_B_vector b b_vec) s

/-- The excited-manifold matrix that system(_b, _s, b_vec) builds and
diagonalizes: _HuT = diag(ZPL) + _HuL(make_B_vector(_b, b_vec), s). -/
def system_HuT (b : ℝ) (_s : Bool) (b_vec : Fin 3 → ℝ) : Matrix (Fin 4) (Fin 4) ℂ :=
  Matrix.diagonal (fun _ => (ZPL : ℂ)) + HuL (make_B_vector b b_vec) s

/-- Model of the external eigensolver np.linalg.eigh: for a 4x4 complex
matrix it returns a real eigenvalue vector and an eigenvector matrix
(eigenvectors as columns). Treated as an oracle parameter throughout. -/
abbrev EighOracle : Type :=
  Matrix (Fin 4) (Fin 4) ℂ → (Fin 4 → ℝ) × Matrix (Fin 4) (Fin 4) ℂ

/-- Source get_eigs: sorts the solver output by (real) eigenvalue via
argsort and permutes the eigenvector columns accordingly. The sorting
permutation np.argsort(np.real(w)) is modelled by Tuple.sort w. -/
def get_eigs (eigh : EighOracle) (matrix : Matrix (Fin 4) (Fin 4) ℂ) :
    (Fin 4 → ℝ) × Matrix (Fin 4) (Fin 4) ℂ :=
  let w := (eigh matrix).1
  let v := (eigh matrix).2
  let idx := Tuple.sort w
  (w ∘ idx, v.submatrix id idx)

/-- Result record of the source manifold function: eigenvalues and
eigenvector matrices per manifold plus the transformed dipole matrices. -/
structure ManifoldResult where
  eigs_g : Fin 4 → ℝ
  eigs_u : Fin 4 → ℝ
  vecs_g : Matrix (Fin 4) (Fin 4) ℂ
  vecs_u : Matrix (Fin 4) (Fin 4) ℂ
  dips : Fin 3 → Matrix (Fin 4) (Fin 4) ℂ

/-- Source manifold(HT, D): diagonalizes both blocks and transforms each
dipole matrix as Mvg-dagger . D[axis] . Mvu. -/
def manifold (eigh : EighOracle) (Hg Hu : Matrix (Fin 4) (Fin 4) ℂ)
    (D : Fin 3 → Matrix (Fin 4) (Fin 4) ℂ) : ManifoldResult :=
  let WVu := get_eigs eigh Hu
  let WVg := get_eigs eigh Hg
  { eigs_g := WVg.1
    eigs_u := WVu.1
    vecs_g := WVg.2
    vecs_u := WVu.2
    dips := fun axis => WVg.2.conjTranspose * D axis * WVu.2 }

/-- Result record of the source manifold_small function. The python arrays
_W[::2] (length 2), _Mv[::2] (shape 2x4: every second ROW) and
product[::2, ::2] (shape 2x2) are typed accordingly. -/
structure ManifoldSmallResult where
  eigs_g : Fin 2 → ℝ
  eigs_u : Fin 2 → ℝ
  vecs_g : Matrix (Fin 2) (Fin 4) ℂ
  vecs_u : Matrix (Fin 2) (Fin 4) ℂ
  dips : Fin 3 → Matrix (Fin 2) (Fin 2) ℂ

/-- The even indices 0, 2 of Fin 4, as selected by the python slice [::2]. -/
def evens : Fin 2 → Fin 4 := ![0, 2]

/-- Source manifold_small(HT, D): same eigendecompositions as manifold, then
eigs sliced [::2], eigenvector matrices sliced [::2] (rows!), and the
transformed dipole products sliced [::2, ::2]. -/
def manifold_small (eigh : EighOracle) (Hg Hu : Matrix (Fin 4) (Fin 4) ℂ)
    (D : Fin 3 → Matrix (Fin 4) (Fin 4) ℂ) : ManifoldSmallResult :=
  let WVu := get_eigs eigh Hu
  let WVg := get_eigs eigh Hg
  { eigs_g := fun i => WVg.1 (evens i)
    eigs_u := fun i => WVu.1 (evens i)
    vecs_g := WVg.2.submatrix evens id
    vecs_u := WVu.2.submatrix evens id
    dips := fun axis =>
      (WVg.2.conjTranspose * D axis * WVu.2).submatrix evens evens }

/-- Block assembly pattern shared by the three composite dipole operators in
system: P[0:4, 4:8] = d and P[4:8, 0:4] = d.conjugate().transpose(), all
other entries left at zero. -/
def assembleP (d : Matrix (Fin 4) (Fin 4) ℂ) : Matrix (Fin 8) (Fin 8) ℂ :=
  Matrix.of fun r c =>
    if hr : r.val < 4 then
      if 4 ≤ c.val then
        d ⟨r.val, hr⟩ ⟨c.val - 4, by have h8 := c.isLt; omega⟩
      else 0
    else
      if hc : c.val < 4 then
        star (d ⟨c.val, hc⟩ ⟨r.val - 4, by have h8 := r.isLt; omega⟩)
      else 0

/-- Result record of the source system function. -/
structure SystemResult where
  sys : ManifoldResult
  px : Matrix (Fin 8) (Fin 8) ℂ
  py : Matrix (Fin 8) (Fin 8) ℂ
  pz : Matrix (Fin 8) (Fin 8) ℂ

/-- Source system(_b, _s, b_vec=[0,0,1]): B = make_B_vector(_b, b_vec) (no
frame conversion), manifold on the two blocks, then the three 8x8 dipole
operators assembled blockwise. The strain argument _s is unused (the
module-level s is read instead). -/
def system (eigh : EighOracle) (b : ℝ) (_s : Bool) (b_vec : Fin 3 → ℝ) :
    SystemResult :=
  let m := manifold eigh (system_HgT b _s b_vec) (system_HuT b _s b_vec) dipole_matel
  { sys := m
    px := assembleP (m.dips 0)
    py := assembleP (m.dips 1)
    pz := assembleP (m.dips 2) }

/-- Block assembly pattern of system_small: P[0:2, 2:4] = d and
P[2:4, 0:2] = d-dagger, other entries zero. -/
def assembleP_small (d : Matrix (Fin 2) (Fin 2) ℂ) : Matrix (Fin 4) (Fin 4) ℂ :=
  Matrix.of fun r c =>
    if hr : r.val < 2 then
      if 2 ≤ c.val then
        d ⟨r.val, hr⟩ ⟨c.val - 2, by have h4 := c.isLt; omega⟩
      else 0
    else
      if hc : c.val < 2 then
        star (d ⟨c.val, hc⟩ ⟨r.val - 2, by have h4 := r.isLt; omega⟩)
      else 0

/-- Result record of the source system_small function. -/
structure SystemSmallResult where
  sys : ManifoldSmallResult
  px : Matrix (Fin 4) (Fin 4) ℂ
  py : Matrix (Fin 4) (Fin 4) ℂ
  pz : Matrix (Fin 4) (Fin 4) ℂ

/-- Source system_small(_b, _s): fixed direction [0, 0, 1], manifold_small on
the same two blocks as system, 4x4 dipole operators. The strain argument
_s is again unused. -/
def system_small (eigh : EighOracle) (b : ℝ) (_s : Bool) : SystemSmallResult :=
  let m := manifold_small eigh (system_HgT b _s ![0, 0, 1])
    (system_HuT b _s ![0, 0, 1]) dipole_matel
  { sys := m
    px := assembleP_small (m.dips 0)
    py := assembleP_small (m.dips 1)
    pz := assembleP_small (m.dips 2) }

/-! ## Basis enumeration (source lines 281-371) -/

/-- Source one-hot occupation list [0 if i != n else 1 for i in range(dim)]. -/
def oneHot (dim n : ℕ) : List ℕ :=
  (List.range dim).map fun i => if i ≠ n then 0 else 1

/-- Source snv_base = [[0 if i != n else 1 for i in range(dim)] for n in
range(dim)]: the list of electronic one-hot states. -/
def snv_base_list (dim : ℕ) : List (List ℕ) :=
  (List.range dim).map (oneHot dim)

/-- Source base (after the flatten step): pairs of a one-hot electronic
state and an auxiliary label, label l outer, level n inner. -/
def base_list (dim : ℕ) : List (List ℕ × ℕ) :=
  ((List.range 2).map fun l =>
    (List.range dim).map fun n => (oneHot dim n, if l = 0 then 0 else 1)).flatten

/-- Entry (r, c) of the enlarged coupling operator built by the accumulation
loop shared by dipole_ham and dipole_ham_bfield: iteration (l, m) of the
inner loops at outer index k = c adds dip_mat[l, m] to entry
(base.index([onehot(l), state[1]]), k) whenever state[0][m] == 1, where
state = base[k]. Summing the contributions gives the final entry. -/
def dip_ham_entry (dim : ℕ) (dip_mat : ℕ → ℕ → ℂ) (r c : ℕ) : ℂ :=
  ∑ l in Finset.range dim, ∑ m in Finset.range dim,
    if ((base_list dim).getD c ([], 0)).1.getD m 0 = 1 ∧
       (base_list dim).indexOf (oneHot dim l, ((base_list dim).getD c ([], 0)).2) = r
    then dip_mat l m else 0

/-- View of a square complex matrix as a total function on nat indices,
zero outside; used to feed system outputs to the nat-indexed loops. -/
def matToFun {n : ℕ} (M : Matrix (Fin n) (Fin n) ℂ) : ℕ → ℕ → ℂ :=
  fun l m => if hl : l < n then if hm : m < n then M ⟨l, hl⟩ ⟨m, hm⟩ else 0 else 0

/-- Source dipole_ham(polarization, b_vec=[0,0,1], epsilon=1e-6): combines
the three composite dipole operators with the polarization weights and runs
the enlarged-basis accumulation loop with dim = 8. -/
def dipole_ham (eigh : EighOracle) (polarization : Fin 3 → ℂ) (epsilon : ℝ)
    (b_vec : Fin 3 → ℝ) : ℕ → ℕ → ℂ :=
  let sys := system eigh epsilon false b_vec
  let dip_mat := polarization 0 • sys.px + polarization 1 • sys.py +
    polarization 2 • sys.pz
  dip_ham_entry 8 (matToFun dip_mat)

/-- Source dipole_ham_bfield(polarization, phi, bm): field direction
[cos phi, 0, sin phi], magnitude bm, then the identical loop. -/
def dipole_ham_bfield (eigh : EighOracle) (polarization : Fin 3 → ℂ)
    (phi bm : ℝ) : ℕ → ℕ → ℂ :=
  let b_vec : Fin 3 → ℝ := ![Real.cos phi, 0, Real.sin phi]
  let sys := system eigh bm false b_vec
  let dip_mat := polarization 0 • sys.px + polarization 1 • sys.py +
    polarization 2 • sys.pz
  dip_ham_entry 8 (matToFun dip_mat)

/-- Source vacancy(epsilon=1e-6, b_vec=[0,0,1]): dtype float (real) matrix;
H is the 8x8 diagonal of concatenated ground-then-excited eigenenergies;
the loop writes vacancy_ham[k, k] = H[ii, ii] with
ii = snv_base.index(base[k][0]). -/
def vacancy (eigh : EighOracle) (epsilon : ℝ) (b_vec : Fin 3 → ℝ) :
    Matrix (Fin 16) (Fin 16) ℝ :=
  let sys := system eigh epsilon false b_vec
  let energies : Fin 8 → ℝ := Fin.append sys.sys.eigs_g sys.sys.eigs_u
  let H : ℕ → ℝ := fun i => if h : i < 8 then energies ⟨i, h⟩ else 0
  Matrix.of fun r c =>
    if c = r then
      H ((snv_base_list 8).indexOf ((base_list 8).getD r.val ([], 0)).1)
    else 0

/-- Source vacancy4lvl(): epsilon = 1e-6, default direction [0,0,1]; the 4x4
diagonal of the even-indexed ([::2]) ground then excited eigenenergies. -/
def vacancy4lvl (eigh : EighOracle) : Matrix (Fin 4) (Fin 4) ℝ :=
  let epsilon : ℝ := 1e-6
  let sys := system eigh epsilon false ![0, 0, 1]
  let energies : Fin 4 → ℝ :=
    Fin.append (fun i : Fin 2 => sys.sys.eigs_g (evens i))
      (fun i : Fin 2 => sys.sys.eigs_u (evens i))
  Matrix.of fun r c => if c = r then energies r else 0

/-- Source energy(epsilon=1e-6, b_vec=[0,0,1]): the concatenated ground then
excited eigenenergies of the system at the given field. -/
def energy (eigh : EighOracle) (epsilon : ℝ) (b_vec : Fin 3 → ℝ) : Fin 8 → ℝ :=
  let sys := system eigh epsilon false b_vec
  Fin.append sys.sys.eigs_g sys.sys.eigs_u

/-! ## Concrete oracle instances used by witnesses and counterexamples -/

/-- Strictly increasing eigenvalue vector 0, 1, 2, 3, so that the sorting
step of get_eigs is the identity permutation. -/
def w_incr : Fin 4 → ℝ := fun i => (i.val : ℝ)

/-- Concrete eigenvector matrix with a single nonzero entry at row 0,
column 1; its even-indexed rows and its even-indexed columns differ. -/
def V_single : Matrix (Fin 4) (Fin 4) ℂ :=
  !![0, 5, 0, 0;
     0, 0, 0, 0;
     0, 0, 0, 0;
     0, 0, 0, 0]

/-- Concrete eigensolver stub returning w_incr and V_single regardless of
the input matrix. -/
def stub_oracle : EighOracle := fun _ => (w_incr, V_single)

/-! ## Helper lemmas on the basis enumeration -/

lemma mul_add_mod_self {dim n : ℕ} (lab : ℕ) (hn : n < dim) :
    (lab * dim + n) % dim = n := by
  rw [mul_comm, Nat.mul_add_mod, Nat.mod_eq_of_lt hn]

lemma mul_add_div_self {dim n : ℕ} (lab : ℕ) (hn : n < dim) :
    (lab * dim + n) / dim = lab := by
  have hdim : 0 < dim := by omega
  rw [mul_comm, Nat.mul_add_div hdim, Nat.div_eq_of_lt hn, Nat.add_zero]

/-- Position of an element of a duplicate-free list. -/
lemma indexOf_of_getElem {α : Type} [BEq α] [LawfulBEq α] {l : List α}
    (hnd : l.Nodup) {k : ℕ} (hk : k < l.length) : l.indexOf l[k] = k := by
  induction l generalizing k with
  | nil => simp at hk
  | cons x xs ih =>
    obtain ⟨hx, hxs⟩ := List.nodup_cons.mp hnd
    cases k with
    | zero => simp [List.indexOf_cons]
    | succ k =>
      have hk2 : k < xs.length := by simpa using hk
      have hmem : xs[k] ∈ xs := List.getElem_mem hk2
      have hne : (x == xs[k]) = false := by
        rw [beq_eq_false_iff_ne]
        intro hcontra
        exact hx (hcontra ▸ hmem)
      simp only [List.getElem_cons_succ, List.indexOf_cons, hne, cond_false]
      rw [ih hxs hk2]

lemma oneHot_length (dim n : ℕ) : (oneHot dim n).length = dim := by
  simp [oneHot]

lemma oneHot_getD {dim m : ℕ} (n : ℕ) (hm : m < dim) :
    (oneHot dim n).getD m 0 = if m ≠ n then 0 else 1 := by
  simp [oneHot, List.getD, List.getElem?_map, List.getElem?_range hm]

lemma oneHot_inj {dim a b : ℕ} (ha : a < dim) (_hb : b < dim)
    (h : oneHot dim a = oneHot dim b) : a = b := by
  by_contra hne
  have h1 := congrArg (fun l => l.getD a 0) h
  simp only [oneHot_getD a ha, oneHot_getD b ha] at h1
  rw [if_neg (by simp), if_pos hne] at h1
  exact one_ne_zero h1

lemma snv_base_list_nodup (dim : ℕ) : (snv_base_list dim).Nodup :=
  List.Nodup.map_on
    (fun _x hx _y hy hxy =>
      oneHot_inj (List.mem_range.mp hx) (List.mem_range.mp hy) hxy)
    (List.nodup_range dim)

lemma snv_base_list_indexOf {dim n : ℕ} (hn : n < dim) :
    (snv_base_list dim).indexOf (oneHot dim n) = n := by
  have hlen : (snv_base_list dim).length = dim := by simp [snv_base_list]
  have hk : n < (snv_base_list dim).length := by omega
  have hget : (snv_base_list dim)[n] = oneHot dim n := by
    simp [snv_base_list]
  rw [← hget]
  exact indexOf_of_getElem (snv_base_list_nodup dim) hk

lemma base_list_eq (dim : ℕ) :
    base_list dim =
      ((List.range dim).map fun n => (oneHot dim n, 0)) ++
      ((List.range dim).map fun n => (oneHot dim n, 1)) := by
  have h2 : List.range 2 = [0, 1] := rfl
  simp [base_list, h2]

lemma base_list_length (dim : ℕ) : (base_list dim).length = 2 * dim := by
  rw [base_list_eq]
  simp
  ring

lemma base_list_getElemOpt {dim k : ℕ} (hk : k < 2 * dim) :
    (base_list dim)[k]? = some (oneHot dim (k % dim), k / dim) := by
  rw [base_list_eq]
  rcases lt_or_ge k dim with hlt | hge
  · rw [List.getElem?_append_left (by simpa using hlt)]
    simp [List.getElem?_map, List.getElem?_range hlt,
      Nat.mod_eq_of_lt hlt, Nat.div_eq_of_lt hlt]
  · rw [List.getElem?_append_right (by simpa using hge)]
    have hmod : k % dim = k - dim := by
      rw [Nat.mod_eq_sub_mod hge, Nat.mod_eq_of_lt (by omega)]
    have hdiv : k / dim = 1 :=
      Nat.div_eq_of_lt_le (by omega) (by omega)
    have hsub : k - dim < dim := by omega
    simp [List.getElem?_map, List.getElem?_range hsub, hmod, hdiv]

lemma base_list_getElem {dim k : ℕ} (hk : k < 2 * dim) :
    (base_list dim).get ⟨k, by rw [base_list_length]; exact hk⟩ =
      (oneHot dim (k % dim), k / dim) := by
  have hlen : k < (base_list dim).length := by rw [base_list_length]; exact hk
  have hopt := base_list_getElemOpt hk
  rw [List.getElem?_eq_getElem hlen] at hopt
  rw [List.get_eq_getElem]
  exact Option.some.inj hopt

lemma base_list_getD {dim k : ℕ} (hk : k < 2 * dim) :
    (base_list dim).getD k ([], 0) = (oneHot dim (k % dim), k / dim) := by
  rw [List.getD_eq_getElem?_getD, base_list_getElemOpt hk, Option.getD_some]

lemma base_list_nodup (dim : ℕ) : (base_list dim).Nodup := by
  rw [base_list_eq]
  refine List.Nodup.append ?_ ?_ ?_
  · exact List.Nodup.map_on
      (fun x hx y hy hxy =>
        oneHot_inj (List.mem_range.mp hx) (List.mem_range.mp hy)
          (congrArg Prod.fst hxy))
      (List.nodup_range dim)
  · exact List.Nodup.map_on
      (fun x hx y hy hxy =>
        oneHot_inj (List.mem_range.mp hx) (List.mem_range.mp hy)
          (congrArg Prod.fst hxy))
      (List.nodup_range dim)
  · intro a ha hb
    obtain ⟨x, -, hxa⟩ := List.mem_map.mp ha
    obtain ⟨y, -, hyb⟩ := List.mem_map.mp hb
    have h0 : a.2 = 0 := by rw [← hxa]
    have h1 : a.2 = 1 := by rw [← hyb]
    omega

lemma base_list_indexOf {dim n lab : ℕ} (hn : n < dim) (hlab : lab < 2) :
    (base_list dim).indexOf (oneHot dim n, lab) = lab * dim + n := by
  have hk : lab * dim + n < 2 * dim := by interval_cases lab <;> omega
  have hmod : (lab * dim + n) % dim = n := mul_add_mod_self lab hn
  have hdiv : (lab * dim + n) / dim = lab := mul_add_div_self lab hn
  have hget : (base_list dim).get
      ⟨lab * dim + n, by rw [base_list_length]; exact hk⟩ =
      (oneHot dim n, lab) := by
    have hg := base_list_getElem hk
    rw [hmod, hdiv] at hg
    exact hg
  have hlen : lab * dim + n < (base_list dim).length := by
    rw [base_list_length]; exact hk
  rw [← hget]
  exact indexOf_of_getElem (base_list_nodup dim) hlen

/-! ## Claim theorems -/

/-- C9: for all real-valued input parameters (any real spin-orbit
coefficient, Jahn-Teller pair, real magnetic-field 3-vector, Zeeman
factors, and strain triple), each of the five term builders H_SO, H_JT,
H_ZL, H_ZS, H_st returns a 4x4 Hermitian matrix (M equals its conjugate
transpose). -/
theorem C9_term_builders_hermitian (l x y gL f gS a b d : ℝ) (B : Fin 3 → ℝ) :
    (H_SO l).conjTranspose = H_SO l ∧
    (H_JT x y).conjTranspose = H_JT x y ∧
    (H_ZL B gL f).conjTranspose = H_ZL B gL f ∧
    (H_ZS B gS).conjTranspose = H_ZS B gS ∧
    (H_st a b d).conjTranspose = H_st a b d := by
  refine ⟨?_, ?_, ?_, ?_, ?_⟩ <;>
    ext i j <;>
    fin_cases i <;> fin_cases j <;>
    simp [H_SO, H_JT, H_ZL, H_ZS, H_st, Matrix.conjTranspose_apply,
      Matrix.vecHead, Matrix.vecTail, Complex.conj_I, Complex.conj_ofReal] <;>
    first | exact Or.inl (by ring) | ring

/-- C10: for every real 3-vector v, applying lattice_to_coord (the
lattice-to-symmetry basis change) and then coord_to_lattice (its
transpose) returns v: the two fixed basis-change maps are mutually
inverse; over the exact reals the round trip is exact. -/
theorem C10_coord_roundtrip (v : Fin 3 → ℝ) :
    coord_to_lattice (lattice_to_coord v) = v := by
  have h6 : Real.sqrt 6 * Real.sqrt 6 = 6 := Real.mul_self_sqrt (by norm_num)
  have h2 : Real.sqrt 2 * Real.sqrt 2 = 2 := Real.mul_self_sqrt (by norm_num)
  have h3 : Real.sqrt 3 * Real.sqrt 3 = 3 := Real.mul_self_sqrt (by norm_num)
  have h6p : 0 < Real.sqrt 6 := Real.sqrt_pos.mpr (by norm_num)
  have h2p : 0 < Real.sqrt 2 := Real.sqrt_pos.mpr (by norm_num)
  have h3p : 0 < Real.sqrt 3 := Real.sqrt_pos.mpr (by norm_num)
  funext i
  fin_cases i <;>
    simp [coord_to_lattice, lattice_to_coord, lattice_basis, lat_ex, lat_ey,
      lat_ez, Matrix.mulVec, dotProduct, Fin.sum_univ_three,
      Matrix.transpose_apply, Matrix.vecHead, Matrix.vecTail] <;>
    field_simp <;>
    nlinarith [h6, h2, h3, h6p, h2p, h3p]

/-- C7 (code bug): make_B_vector divides by the SQUARED euclidean norm of
the direction (np.sum(np.abs(vec))**2 misses the square root), so for the
non-unit direction (0, 0, 2) and magnitude 1 the returned vector is
(0, 0, 1/2), whose euclidean norm is 1/2, not the requested magnitude 1. -/
theorem C7_make_B_vector_norm_bug :
    make_B_vector 1 ![0, 0, 2] = ![0, 0, 1 / 2] ∧
    euclNorm (make_B_vector 1 ![0, 0, 2]) = 1 / 2 ∧
    ((1 : ℝ) / 2) ≠ 1 := by
  have hv : make_B_vector 1 ![0, 0, 2] = ![0, 0, (1 : ℝ) / 2] := by
    funext i
    fin_cases i <;>
      simp [make_B_vector, Fin.sum_univ_three, Matrix.vecHead,
        Matrix.vecTail] <;>
      norm_num
  refine ⟨hv, ?_, by norm_num⟩
  rw [hv]
  have h0 : (![0, 0, (1 : ℝ) / 2]) 0 = 0 := rfl
  have h1 : (![0, 0, (1 : ℝ) / 2]) 1 = 0 := rfl
  have h2 : (![0, 0, (1 : ℝ) / 2]) 2 = 1 / 2 := rfl
  unfold euclNorm
  rw [Fin.sum_univ_three, h0, h1, h2]
  rw [show (0 : ℝ) ^ 2 + (0 : ℝ) ^ 2 + ((1 : ℝ) / 2) ^ 2 = ((1 : ℝ) / 2) ^ 2
    by norm_num]
  exact Real.sqrt_sq (by norm_num)

/-- C8 counterexample: the source performs no zero-direction validation at
all; at magnitude 1 and the zero direction make_B_vector returns a value
(componentwise 1 * 0 / 0; in IEEE arithmetic a NaN vector, under the Lean
division-by-zero convention the zero vector) instead of failing. -/
theorem C8_zero_direction_no_failure :
    make_B_vector 1 ![0, 0, 0] = ![0, 0, 0] := by
  funext i
  fin_cases i <;> simp [make_B_vector]

/-- C8 amended: for every magnitude, make_B_vector applied to the zero
direction returns a value rather than raising InvalidArgument: the
function body is a total componentwise division with no validation, and
its division by the zero squared-norm yields the (NaN-modelled) zero
vector in this embedding. -/
theorem C8_zero_direction_returns_value (magnitude : ℝ) :
    make_B_vector magnitude ![0, 0, 0] = ![0, 0, 0] := by
  funext i
  fin_cases i <;> simp [make_B_vector]

/-- Evaluation of the ground-sector block of snv_hamiltonian: rows and
columns 4..7 hold the ground matrix _HgL(B, s). -/
lemma snv_ham_ground (b : ℝ) (flag : Bool) (bvec : Fin 3 → ℝ) (i j : Fin 4) :
    snv_hamiltonian b flag bvec (Fin.natAdd 4 i) (Fin.natAdd 4 j) =
      HgL (make_B_vector b (lattice_to_coord bvec)) s i j := by
  simp only [snv_hamiltonian, Matrix.of_apply, Fin.natAdd,
    Nat.add_sub_cancel_left, Fin.eta]
  rw [dif_neg (by omega), if_pos (by omega)]

/-- Evaluation of the excited-sector block of snv_hamiltonian: rows and
columns 0..3 hold diag(ZPL) + _HuL(B, s). -/
lemma snv_ham_excited (b : ℝ) (flag : Bool) (bvec : Fin 3 → ℝ) (i j : Fin 4) :
    snv_hamiltonian b flag bvec (Fin.castAdd 4 i) (Fin.castAdd 4 j) =
      ((Matrix.diagonal (fun _ => (ZPL : ℂ)) +
        HuL (make_B_vector b (lattice_to_coord bvec)) s :
          Matrix (Fin 4) (Fin 4) ℂ)) i j := by
  simp only [snv_hamiltonian, Matrix.of_apply, Fin.castAdd, Fin.castLE,
    Fin.eta]
  rw [dif_pos i.isLt, dif_pos j.isLt]

/-- Zero field magnitude gives the zero field vector. -/
lemma make_B_vector_zero (w : Fin 3 → ℝ) :
    make_B_vector 0 w = fun _ => 0 := by
  funext i
  simp [make_B_vector]

/-- C1 (code bug): the three public entry points accept a strain flag but
call _HgL and _HuL with the module-level global s = False, so the flag is
ignored and the strain term is never added: the outputs for flag values
f1 and f2 coincide for all inputs, and at zero field with the flag set to
true the ground-block entry (0, 2) (at position (4, 6) of the 8x8) equals
-i lambda_g / 2, missing the beta_g contribution that the strain-enabled
block HgL(B, true) carries, with beta_g nonzero. -/
theorem C1_strain_flag_ignored :
    (∀ (eigh : EighOracle) (b : ℝ) (bvec : Fin 3 → ℝ) (f1 f2 : Bool),
      snv_hamiltonian b f1 bvec = snv_hamiltonian b f2 bvec ∧
      system eigh b f1 bvec = system eigh b f2 bvec ∧
      system_small eigh b f1 = system_small eigh b f2) ∧
    snv_hamiltonian 0 true ![0, 0, 1] ⟨4, by norm_num⟩ ⟨6, by norm_num⟩ =
      -(Complex.I * (lambda_g : ℂ)) / 2 ∧
    HgL (make_B_vector 0 (lattice_to_coord ![0, 0, 1])) true 0 2 =
      -(Complex.I * (lambda_g : ℂ)) / 2 + (beta_g : ℂ) ∧
    (beta_g : ℂ) ≠ 0 := by
  refine ⟨fun eigh b bvec f1 f2 => ⟨rfl, rfl, rfl⟩, ?_, ?_, ?_⟩
  · rw [show (⟨4, by norm_num⟩ : Fin 8) = Fin.natAdd 4 (0 : Fin 4) from rfl,
      show (⟨6, by norm_num⟩ : Fin 8) = Fin.natAdd 4 (2 : Fin 4) from rfl,
      snv_ham_ground, make_B_vector_zero]
    simp [HgL, s, Hg0, H_SO, H_JT, H_ZL, H_ZS, xi_yg,
      Matrix.vecHead, Matrix.vecTail]
    ring
  · rw [make_B_vector_zero]
    simp [HgL, Hg0, H_SO, H_JT, H_ZL, H_ZS, H_st, xi_yg,
      Matrix.vecHead, Matrix.vecTail]
    ring
  · have hpos : (0 : ℝ) < beta_g := by
      rw [beta_g, pi]
      positivity
    simpa using ne_of_gt hpos

/-- Entry (0, 0) of the excited manifold matrix diag(ZPL) + _HuL(B, s):
only ZPL, the Jahn-Teller xi_xu and the spin-Zeeman gamma_S Bz terms
contribute on that diagonal position. -/
lemma HuT_entry00 (B : Fin 3 → ℝ) :
    ((Matrix.diagonal (fun _ => (ZPL : ℂ)) + HuL B s :
        Matrix (Fin 4) (Fin 4) ℂ)) 0 0 =
      (ZPL : ℂ) + (xi_xu : ℂ) + (gamma_S : ℂ) * ((B 2 : ℝ) : ℂ) := by
  simp [HuL, Hu0, H_SO, H_JT, H_ZL, H_ZS, s, Matrix.diagonal,
    Matrix.vecHead, Matrix.vecTail]
  ring

/-- Component values of the symmetry-frame image of the lattice direction
(0, 0, 1). -/
lemma lattice_to_coord_e3 :
    lattice_to_coord ![0, 0, 1] 0 = 1 / Real.sqrt 6 ∧
    lattice_to_coord ![0, 0, 1] 1 = -(1 / Real.sqrt 2) ∧
    lattice_to_coord ![0, 0, 1] 2 = 1 / Real.sqrt 3 := by
  refine ⟨?_, ?_, ?_⟩ <;>
    simp [lattice_to_coord, lattice_basis, lat_ex, lat_ey, lat_ez,
      Matrix.mulVec, dotProduct, Fin.sum_univ_three, Matrix.vecHead,
      Matrix.vecTail]

/-- C5 counterexample: at magnitude 1, strain off, and the shared default
direction (0, 0, 1), the excited block [0:4, 0:4] of snv_hamiltonian does
not equal the excited matrix that system builds: snv_hamiltonian first
converts the direction through lattice_to_coord (z-component becomes
1/sqrt 3) while system uses it raw (z-component 1), and the spin-Zeeman
diagonal entry differs by the nonzero factor gamma_S (1 - 1/sqrt 3). -/
theorem C5_counterexample :
    ¬ (∀ i j : Fin 4,
        snv_hamiltonian 1 false ![0, 0, 1] (Fin.castAdd 4 i) (Fin.castAdd 4 j) =
          system_HuT 1 false ![0, 0, 1] i j) := by
  intro hclaim
  obtain ⟨hw0, hw1, hw2⟩ := lattice_to_coord_e3
  have e6 : (1 / Real.sqrt 6) ^ 2 = 1 / 6 := by
    rw [div_pow, one_pow, Real.sq_sqrt (by norm_num : (0 : ℝ) ≤ 6)]
  have e2 : (1 / Real.sqrt 2) ^ 2 = 1 / 2 := by
    rw [div_pow, one_pow, Real.sq_sqrt (by norm_num : (0 : ℝ) ≤ 2)]
  have e3 : (1 / Real.sqrt 3) ^ 2 = 1 / 3 := by
    rw [div_pow, one_pow, Real.sq_sqrt (by norm_num : (0 : ℝ) ≤ 3)]
  have habs : ∀ x : ℝ, |x| ^ 2 = x ^ 2 := fun x => sq_abs x
  have hsum : (∑ j, |lattice_to_coord ![0, 0, 1] j| ^ 2) = 1 := by
    rw [Fin.sum_univ_three, hw0, hw1, hw2, habs, habs, habs, neg_sq,
      e6, e2, e3]
    norm_num
  have hB1 : make_B_vector 1 (lattice_to_coord ![0, 0, 1]) 2 =
      1 / Real.sqrt 3 := by
    simp only [make_B_vector, hsum, hw2]
    norm_num
  have hB2 : make_B_vector 1 ![0, 0, 1] 2 = 1 := by
    simp [make_B_vector, Fin.sum_univ_three, Matrix.vecHead, Matrix.vecTail]
  have h00 := hclaim 0 0
  rw [snv_ham_excited, HuT_entry00] at h00
  have hr : system_HuT 1 false ![0, 0, 1] 0 0 =
      (ZPL : ℂ) + (xi_xu : ℂ) + (gamma_S : ℂ) *
        ((make_B_vector 1 ![0, 0, 1] 2 : ℝ) : ℂ) := by
    simp only [system_HuT]
    exact HuT_entry00 _
  rw [hr, hB1, hB2] at h00
  have hreal : ZPL + xi_xu + gamma_S * (1 / Real.sqrt 3) =
      ZPL + xi_xu + gamma_S * 1 := by
    exact_mod_cast h00
  have hgs : 0 < gamma_S := by
    rw [gamma_S, gamma_L, mu_B, hbar, planck_h, e, m_e]
    positivity
  have hs3 : 0 < Real.sqrt 3 := Real.sqrt_pos.mpr (by norm_num)
  have hlt : 1 < Real.sqrt 3 := by
    rw [show (1 : ℝ) = Real.sqrt 1 from (Real.sqrt_one).symm]
    exact Real.sqrt_lt_sqrt (by norm_num) (by norm_num)
  have hmul : gamma_S * (1 / Real.sqrt 3) = gamma_S := by linarith
  rw [mul_one_div] at hmul
  have hdiv := (div_eq_iff (ne_of_gt hs3)).mp hmul
  nlinarith [hgs, hlt, hdiv]

/-- C5 amended: snv_hamiltonian interprets the optional direction argument
in the host-lattice frame, converting it with lattice_to_coord before
building the field vector, while system takes the direction in the
symmetry frame directly; consequently the excited block [0:4, 0:4] and
ground block [4:8, 4:8] of snv_hamiltonian(b, f, b_vec) equal the two
manifold matrices that system builds for the CONVERTED direction
lattice_to_coord(b_vec), not for b_vec itself. -/
theorem C5_blocks_match_converted_direction (b : ℝ) (flag : Bool)
    (bvec : Fin 3 → ℝ) :
    (∀ i j : Fin 4,
      snv_hamiltonian b flag bvec (Fin.castAdd 4 i) (Fin.castAdd 4 j) =
        system_HuT b flag (lattice_to_coord bvec) i j) ∧
    (∀ i j : Fin 4,
      snv_hamiltonian b flag bvec (Fin.natAdd 4 i) (Fin.natAdd 4 j) =
        system_HgT b flag (lattice_to_coord bvec) i j) := by
  constructor <;> intro i j
  · rw [snv_ham_excited]
    rfl
  · rw [snv_ham_ground]
    rfl

/-- Upper-right block of the composite dipole assembly holds the
transformed matrix. -/
lemma assembleP_ur (d : Matrix (Fin 4) (Fin 4) ℂ) (i j : Fin 4) :
    assembleP d (Fin.castAdd 4 i) (Fin.natAdd 4 j) = d i j := by
  simp only [assembleP, Matrix.of_apply, Fin.castAdd, Fin.castLE, Fin.natAdd,
    Nat.add_sub_cancel_left, Fin.eta]
  rw [dif_pos i.isLt, if_pos (by omega)]

/-- Lower-left block of the composite dipole assembly holds the conjugate
transpose of the transformed matrix. -/
lemma assembleP_ll (d : Matrix (Fin 4) (Fin 4) ℂ) (i j : Fin 4) :
    assembleP d (Fin.natAdd 4 i) (Fin.castAdd 4 j) = star (d j i) := by
  simp only [assembleP, Matrix.of_apply, Fin.natAdd, Fin.castAdd, Fin.castLE,
    Nat.add_sub_cancel_left, Fin.eta]
  rw [dif_neg (by omega), dif_pos j.isLt]

/-- Upper-left block of the composite dipole assembly is zero. -/
lemma assembleP_ul (d : Matrix (Fin 4) (Fin 4) ℂ) (i j : Fin 4) :
    assembleP d (Fin.castAdd 4 i) (Fin.castAdd 4 j) = 0 := by
  simp only [assembleP, Matrix.of_apply, Fin.castAdd, Fin.castLE]
  rw [dif_pos i.isLt, if_neg (by have hj := j.isLt; omega)]

/-- Lower-right block of the composite dipole assembly is zero. -/
lemma assembleP_lr (d : Matrix (Fin 4) (Fin 4) ℂ) (i j : Fin 4) :
    assembleP d (Fin.natAdd 4 i) (Fin.natAdd 4 j) = 0 := by
  simp only [assembleP, Matrix.of_apply, Fin.natAdd]
  rw [dif_neg (by omega), dif_neg (by omega)]

/-- Hermiticity of the composite dipole assembly, for every 4x4 block d. -/
lemma assembleP_herm (d : Matrix (Fin 4) (Fin 4) ℂ) :
    (assembleP d).conjTranspose = assembleP d := by
  ext r c
  rw [Matrix.conjTranspose_apply]
  unfold assembleP
  simp only [Matrix.of_apply]
  rcases lt_or_ge r.val 4 with hr | hr <;> rcases lt_or_ge c.val 4 with hc | hc
  · rw [dif_pos hr, dif_pos hc, if_neg (by omega), if_neg (by omega),
      star_zero]
  · rw [dif_neg (by omega), dif_pos hr, star_star, dif_pos hr,
      if_pos (by omega)]
  · rw [dif_pos hc, if_pos (by omega), dif_neg (by omega), dif_pos hc]
  · rw [dif_neg (by omega), dif_neg (by omega), dif_neg (by omega),
      dif_neg (by omega), star_zero]

/-- C6: for all field and strain inputs and each of the three axes, the
composite dipole operator returned by system is an 8x8 Hermitian matrix
whose block at rows [0,4), columns [4,8) is the transformed axis matrix
vecs_g-dagger * raw_dipole * vecs_u, whose block at rows [4,8), columns
[0,4) is the conjugate transpose of that matrix, and whose remaining
(diagonal-block) entries are all zero. -/
theorem C6_composite_dipole_structure (eigh : EighOracle) (b : ℝ)
    (flag : Bool) (bvec : Fin 3 → ℝ) :
    ∀ a : Fin 3,
      (![(system eigh b flag bvec).px, (system eigh b flag bvec).py,
          (system eigh b flag bvec).pz] a).conjTranspose =
        ![(system eigh b flag bvec).px, (system eigh b flag bvec).py,
          (system eigh b flag bvec).pz] a ∧
      (∀ i j : Fin 4,
        ![(system eigh b flag bvec).px, (system eigh b flag bvec).py,
            (system eigh b flag bvec).pz] a
            (Fin.castAdd 4 i) (Fin.natAdd 4 j) =
          ((system eigh b flag bvec).sys.vecs_g.conjTranspose *
            dipole_matel a * (system eigh b flag bvec).sys.vecs_u) i j) ∧
      (∀ i j : Fin 4,
        ![(system eigh b flag bvec).px, (system eigh b flag bvec).py,
            (system eigh b flag bvec).pz] a
            (Fin.natAdd 4 i) (Fin.castAdd 4 j) =
          star (((system eigh b flag bvec).sys.vecs_g.conjTranspose *
            dipole_matel a * (system eigh b flag bvec).sys.vecs_u) j i)) ∧
      (∀ i j : Fin 4,
        ![(system eigh b flag bvec).px, (system eigh b flag bvec).py,
            (system eigh b flag bvec).pz] a
            (Fin.castAdd 4 i) (Fin.castAdd 4 j) = 0 ∧
        ![(system eigh b flag bvec).px, (system eigh b flag bvec).py,
            (system eigh b flag bvec).pz] a
            (Fin.natAdd 4 i) (Fin.natAdd 4 j) = 0) := by
  intro a
  fin_cases a <;>
    exact ⟨assembleP_herm _, fun i j => assembleP_ur _ i j,
      fun i j => assembleP_ll _ i j,
      fun i j => ⟨assembleP_ul _ i j, assembleP_lr _ i j⟩⟩

/-- The linearly increasing stub eigenvalues are monotone, so the argsort
step of get_eigs is the identity on them. -/
lemma w_incr_monotone : Monotone w_incr := by
  intro i j hij
  exact_mod_cast Nat.cast_le.mpr hij

lemma stub_sort : Tuple.sort w_incr = Equiv.refl (Fin 4) :=
  Tuple.sort_eq_refl_iff_monotone.mpr w_incr_monotone

/-- On the stub oracle, get_eigs returns the stub data unchanged. -/
lemma get_eigs_stub (M : Matrix (Fin 4) (Fin 4) ℂ) :
    get_eigs stub_oracle M = (w_incr, V_single) := by
  unfold get_eigs stub_oracle
  simp only [stub_sort, Equiv.coe_refl, Function.comp_id,
    Matrix.submatrix_id_id]

/-- C4 counterexample: manifold_small stores the even-indexed ROWS of the
eigenvector matrix (components 0 and 2 of every eigenvector), not the
even-indexed eigenvectors (columns): with a stub eigensolver returning
ascending eigenvalues and the single-entry eigenvector matrix V_single,
the reduced entry (0, 1) is 5 while the (row 1, eigenvector 0) entry of
the full decomposition is 0. -/
theorem C4_counterexample :
    ¬ (∀ (i : Fin 2) (j : Fin 4),
        (manifold_small stub_oracle 0 0 dipole_matel).vecs_g i j =
          (manifold stub_oracle 0 0 dipole_matel).vecs_g j (evens i)) := by
  intro h
  have h01 := h 0 1
  simp only [manifold_small, manifold, get_eigs_stub,
    Matrix.submatrix_apply, id] at h01
  have hL : V_single (evens 0) 1 = 5 := by
    simp [V_single, evens, Matrix.vecHead, Matrix.vecTail]
  have hR : V_single 1 (evens 0) = 0 := by
    simp [V_single, evens, Matrix.vecHead, Matrix.vecTail]
  rw [hL, hR] at h01
  norm_num at h01

/-- C4 amended: the reduced variants are the even-indexed projections of
the full results for eigenvalues and transformed dipole matrices
(entries 0, 2 of the per-manifold eigenvalue vectors; even-indexed rows
AND columns of the transformed dipole products; vacancy4lvl places the
even-indexed ground then excited eigenvalues of the full system on its
diagonal) — but the stored eigenvector arrays are the even-indexed ROWS
of the full eigenvector matrices, not the even-indexed eigenpairs. -/
theorem C4_reduced_is_even_projection (eigh : EighOracle)
    (Hg Hu : Matrix (Fin 4) (Fin 4) ℂ)
    (D : Fin 3 → Matrix (Fin 4) (Fin 4) ℂ) (b : ℝ) (flag : Bool) :
    ((manifold_small eigh Hg Hu D).eigs_g =
      fun i => (manifold eigh Hg Hu D).eigs_g (evens i)) ∧
    ((manifold_small eigh Hg Hu D).eigs_u =
      fun i => (manifold eigh Hg Hu D).eigs_u (evens i)) ∧
    ((manifold_small eigh Hg Hu D).vecs_g =
      (manifold eigh Hg Hu D).vecs_g.submatrix evens id) ∧
    ((manifold_small eigh Hg Hu D).vecs_u =
      (manifold eigh Hg Hu D).vecs_u.submatrix evens id) ∧
    (∀ a : Fin 3, (manifold_small eigh Hg Hu D).dips a =
      ((manifold eigh Hg Hu D).dips a).submatrix evens evens) ∧
    ((system_small eigh b flag).sys.eigs_g =
      fun i => (system eigh b flag ![0, 0, 1]).sys.eigs_g (evens i)) ∧
    ((system_small eigh b flag).sys.eigs_u =
      fun i => (system eigh b flag ![0, 0, 1]).sys.eigs_u (evens i)) ∧
    (∀ a : Fin 3, (system_small eigh b flag).sys.dips a =
      ((system eigh b flag ![0, 0, 1]).sys.dips a).submatrix evens evens) ∧
    (∀ r : Fin 4, vacancy4lvl eigh r r =
      Fin.append
        (fun i : Fin 2 =>
          (system eigh 1e-6 false ![0, 0, 1]).sys.eigs_g (evens i))
        (fun i : Fin 2 =>
          (system eigh 1e-6 false ![0, 0, 1]).sys.eigs_u (evens i)) r) := by
  refine ⟨rfl, rfl, rfl, rfl, fun a => rfl, rfl, rfl, fun a => rfl, ?_⟩
  intro r
  simp [vacancy4lvl]

/-- C2: for every dim and every dim-by-dim complex dipole matrix, the
enlarged coupling operator built by the accumulation loop of dipole_ham
and dipole_ham_bfield places dipole_matrix[to, from] at entry
(label*dim + to, label*dim + from) for both label values, every entry
whose row and column lie in different label sectors (r / dim different
from c / dim) is exactly zero, and the two public builders are exactly
this loop applied at dim = 8 to the polarization-weighted combination of
the three composite dipole operators of system. -/
theorem C2_coupling_operator_structure (dim : ℕ) (D : ℕ → ℕ → ℂ)
    (eigh : EighOracle) (pol : Fin 3 → ℂ) (epsilon bm phi : ℝ)
    (bvec : Fin 3 → ℝ) :
    (∀ lab to_lvl from_lvl : ℕ, lab < 2 → to_lvl < dim → from_lvl < dim →
      dip_ham_entry dim D (lab * dim + to_lvl) (lab * dim + from_lvl) =
        D to_lvl from_lvl) ∧
    (∀ r c : ℕ, r < 2 * dim → c < 2 * dim → r / dim ≠ c / dim →
      dip_ham_entry dim D r c = 0) ∧
    (dipole_ham eigh pol epsilon bvec =
      dip_ham_entry 8 (matToFun
        (pol 0 • (system eigh epsilon false bvec).px +
         pol 1 • (system eigh epsilon false bvec).py +
         pol 2 • (system eigh epsilon false bvec).pz))) ∧
    (dipole_ham_bfield eigh pol phi bm =
      dip_ham_entry 8 (matToFun
        (pol 0 • (system eigh bm false ![Real.cos phi, 0, Real.sin phi]).px +
         pol 1 • (system eigh bm false ![Real.cos phi, 0, Real.sin phi]).py +
         pol 2 • (system eigh bm false ![Real.cos phi, 0, Real.sin phi]).pz))) := by
  refine ⟨?_, ?_, rfl, rfl⟩
  · intro lab tn fm hlab htn hfm
    have hcol : lab * dim + fm < 2 * dim := by
      have h1 : lab * dim ≤ 1 * dim := Nat.mul_le_mul_right dim (by omega)
      omega
    simp only [dip_ham_entry, base_list_getD hcol,
      mul_add_mod_self lab hfm, mul_add_div_self lab hfm]
    have hbody : ∀ l ∈ Finset.range dim, ∀ m ∈ Finset.range dim,
        (if (oneHot dim fm).getD m 0 = 1 ∧
            (base_list dim).indexOf (oneHot dim l, lab) = lab * dim + tn
         then D l m else 0) =
          if l = tn ∧ m = fm then D l m else 0 := by
      intro l hl m hm
      rw [Finset.mem_range] at hl hm
      rw [oneHot_getD fm hm, base_list_indexOf hl hlab]
      apply if_congr _ rfl rfl
      constructor
      · rintro ⟨h1, h2⟩
        refine ⟨by omega, ?_⟩
        by_cases hmf : m = fm
        · exact hmf
        · rw [if_pos hmf] at h1
          exact absurd h1 (by norm_num)
      · rintro ⟨rfl, rfl⟩
        exact ⟨by simp, rfl⟩
    rw [Finset.sum_congr rfl
      (fun l hl => Finset.sum_congr rfl (fun m hm => hbody l hl m hm))]
    rw [Finset.sum_eq_single tn
      (fun l _ hne => Finset.sum_eq_zero
        (fun m _ => if_neg (fun hand => hne hand.1)))
      (fun habs => absurd (Finset.mem_range.mpr htn) habs)]
    rw [Finset.sum_eq_single fm
      (fun m _ hne => if_neg (fun hand => hne hand.2))
      (fun habs => absurd (Finset.mem_range.mpr hfm) habs)]
    exact if_pos ⟨rfl, rfl⟩
  · intro r c hr hc hne
    rcases Nat.eq_zero_or_pos dim with hdim | hdim
    · simp [dip_ham_entry, hdim]
    · simp only [dip_ham_entry, base_list_getD hc]
      refine Finset.sum_eq_zero (fun l hl => Finset.sum_eq_zero (fun m hm => ?_))
      rw [Finset.mem_range] at hl hm
      apply if_neg
      rintro ⟨h1, h2⟩
      have hclab : c / dim < 2 := by
        rw [Nat.div_lt_iff_lt_mul hdim]
        omega
      rw [base_list_indexOf hl hclab] at h2
      apply hne
      rw [← h2]
      exact mul_add_div_self (c / dim) hl

/-- C2 witness: the index formula and the cross-sector zero evaluated at
dim = 1 on the constant dipole matrix 7. -/
theorem C2_witness :
    dip_ham_entry 1 (fun _ _ => (7 : ℂ)) 1 1 = 7 ∧
    dip_ham_entry 1 (fun _ _ => (7 : ℂ)) 0 1 = 0 := by
  constructor
  · have h := (C2_coupling_operator_structure 1 (fun _ _ => (7 : ℂ))
      stub_oracle 0 0 0 0 ![0, 0, 1]).1 1 0 0
      (by norm_num) (by norm_num) (by norm_num)
    simpa using h
  · have h := (C2_coupling_operator_structure 1 (fun _ _ => (7 : ℂ))
      stub_oracle 0 0 0 0 ![0, 0, 1]).2.1 0 1
      (by norm_num) (by norm_num) (by norm_num)
    simpa using h

/-- C3: vacancy builds a real 16x16 matrix that is diagonal (all
off-diagonal entries zero), whose diagonal entry at index
label*8 + level equals the concatenated ground-then-excited eigenenergy
list of the system at position level — the same energy appearing once in
each label sector — and the per-manifold eigenvalue vectors entering that
list are ascending (the argsort step of get_eigs sorts them). -/
theorem C3_energy_operator_structure (eigh : EighOracle) (epsilon : ℝ)
    (bvec : Fin 3 → ℝ) :
    (∀ (lab : Fin 2) (lvl : Fin 8),
      vacancy eigh epsilon bvec
          ⟨lab.val * 8 + lvl.val, by
            have h1 := lab.isLt; have h2 := lvl.isLt; omega⟩
          ⟨lab.val * 8 + lvl.val, by
            have h1 := lab.isLt; have h2 := lvl.isLt; omega⟩ =
        energy eigh epsilon bvec lvl) ∧
    (∀ r c : Fin 16, r ≠ c → vacancy eigh epsilon bvec r c = 0) ∧
    Monotone (system eigh epsilon false bvec).sys.eigs_g ∧
    Monotone (system eigh epsilon false bvec).sys.eigs_u := by
  refine ⟨?_, ?_, ?_, ?_⟩
  · intro lab lvl
    have hk : lab.val * 8 + lvl.val < 2 * 8 := by
      have h1 := lab.isLt; have h2 := lvl.isLt; omega
    simp only [vacancy, Matrix.of_apply, if_pos rfl]
    rw [base_list_getD hk]
    simp only [mul_add_mod_self lab.val lvl.isLt,
      snv_base_list_indexOf lvl.isLt, if_true]
    rw [dif_pos lvl.isLt]
    simp [energy, Fin.eta]
  · intro r c hne
    simp only [vacancy, Matrix.of_apply]
    rw [if_neg (fun h => hne h.symm)]
  · exact Tuple.monotone_sort _
  · exact Tuple.monotone_sort _

/-- C3 witness: an off-diagonal entry of vacancy on the stub oracle is
zero. -/
theorem C3_witness : vacancy stub_oracle 1 ![0, 0, 1] 0 1 = 0 :=
  (C3_energy_operator_structure stub_oracle 1 ![0, 0, 1]).2.1 0 1 (by decide)

end

